import Mathlib

/-!
Verification of the BTree repository (BTree.hpp): a generic comparator-driven
binary search tree with insert, search, a per-node visited flag, and an
unvisit-all operation.  The C++ template classes `BtreeNode<T>` and `Btree<T>`
are embedded shallowly: `std::unique_ptr<BtreeNode<T>>` child slots become
`Option (BtreeNode T)`, the comparator `std::function<bool(const T&,const T&)>`
becomes `T → T → Bool`, `operator==` on `T` becomes decidable equality, and
`std::optional` results become `Option`.
-/

/-- The comparator type `BtreeCmp<T> = std::function<bool(const T& toInsert, const T& cNode)>`. -/
def BtreeCmp (T : Type) : Type := T → T → Bool

/-- A tree node: left child slot, right child slot, stored value, visited flag.
Embeds `BtreeNode<T>` with its fields `_left`, `_right`, `_value`, `_visited`;
an absent (null) `BtreeValue<T>` child is `none`. -/
inductive BtreeNode (T : Type) : Type where
  | mk (left : Option (BtreeNode T)) (right : Option (BtreeNode T)) (value : T) (visited : Bool)

/-- Accessor for `_left` (the `left()` method). -/
def BtreeNode.left {T : Type} : BtreeNode T → Option (BtreeNode T)
  | .mk l _ _ _ => l

/-- Accessor for `_right` (the `right()` method). -/
def BtreeNode.right {T : Type} : BtreeNode T → Option (BtreeNode T)
  | .mk _ r _ _ => r

/-- Accessor for `_value` (the `get()` method). -/
def BtreeNode.value {T : Type} : BtreeNode T → T
  | .mk _ _ v _ => v

/-- Accessor for `_visited` (the `isVisited()` method). -/
def BtreeNode.isVisited {T : Type} : BtreeNode T → Bool
  | .mk _ _ _ b => b

/-- Method `BtreeNode::makeNode`: a fresh node holding `v`, both children absent,
`_visited` initialised to `false`. -/
def BtreeNode.makeNode {T : Type} (v : T) : BtreeNode T :=
  .mk none none v false

/-- Method `BtreeNode::insert(value, cmp, allow_duplicates)`: if duplicates are not
allowed and `value == _value`, return with no change; otherwise descend left
when `cmp(value, _value)` is true and right when it is false, recursing when
the chosen child exists and attaching a fresh node in the empty slot
otherwise. -/
def BtreeNode.insert {T : Type} [DecidableEq T] :
    BtreeNode T → T → BtreeCmp T → Bool → BtreeNode T
  | .mk l r val vis, v, cmp, allow_duplicates =>
    if allow_duplicates = false ∧ v = val then
      .mk l r val vis
    else if cmp v val then
      match l with
      | some ln => .mk (some (ln.insert v cmp allow_duplicates)) r val vis
      | none => .mk (some (BtreeNode.makeNode v)) r val vis
    else
      match r with
      | some rn => .mk l (some (rn.insert v cmp allow_duplicates)) val vis
      | none => .mk l (some (BtreeNode.makeNode v)) val vis

/-- Method `BtreeNode::search(value, cmp)`: return the stored value when
`_value == value`; otherwise descend left when `cmp(value, _value)` is true
and right when it is false, returning `none` when the chosen child is
absent. -/
def BtreeNode.search {T : Type} [DecidableEq T] :
    BtreeNode T → T → BtreeCmp T → Option T
  | .mk l r val _, v, cmp =>
    if val = v then some val
    else if cmp v val then
      match l with
      | some ln => ln.search v cmp
      | none => none
    else
      match r with
      | some rn => rn.search v cmp
      | none => none

/-- Method `BtreeNode::unvisit(unvisitSubNodes)`: clear `_visited`, and when
`unvisitSubNodes` is true recurse into both children. -/
def BtreeNode.unvisit {T : Type} : BtreeNode T → Bool → BtreeNode T
  | .mk l r val _, unvisitSubNodes =>
    if unvisitSubNodes then
      .mk (match l with | some ln => some (ln.unvisit unvisitSubNodes) | none => none)
        (match r with | some rn => some (rn.unvisit unvisitSubNodes) | none => none)
        val false
    else
      .mk l r val false

/-- Method `BtreeNode::visit()`: set `_visited` to true. -/
def BtreeNode.visit {T : Type} : BtreeNode T → BtreeNode T
  | .mk l r val _ => .mk l r val true

/-- The tree `Btree<T>`: owned root slot `_root`, comparator `_cmp`, duplicate
policy `_allow_duplicates`. -/
structure Btree (T : Type) where
  root : Option (BtreeNode T)
  cmp : BtreeCmp T
  allow_duplicates : Bool

/-- The `Btree(cmp, allow_duplicates)` constructor: empty root. -/
def Btree.new {T : Type} (cmp : BtreeCmp T) (allow_duplicates : Bool) : Btree T :=
  ⟨none, cmp, allow_duplicates⟩

/-- Method `Btree::insert(value)`: when `_root` is null the value becomes the root
node, otherwise the insert is delegated to `_root->insert`; the tree itself
(builder style, `return *this`) is the result. -/
def Btree.insert {T : Type} [DecidableEq T] (t : Btree T) (v : T) : Btree T :=
  match t.root with
  | none => { t with root := some (BtreeNode.makeNode v) }
  | some r => { t with root := some (r.insert v t.cmp t.allow_duplicates) }

/-- A sequence of `Btree::insert` calls, first element inserted first. -/
def Btree.insertList {T : Type} [DecidableEq T] (t : Btree T) (vs : List T) : Btree T :=
  List.foldl Btree.insert t vs

/-- Method `Btree::search(value)`: `std::nullopt` when `_root` is null, otherwise
delegate to `_root->search(value, _cmp)`. -/
def Btree.search {T : Type} [DecidableEq T] (t : Btree T) (v : T) : Option T :=
  match t.root with
  | some r => r.search v t.cmp
  | none => none

/-- Method `Btree::unvisitNodes()`: the body is `_root->unvisit(true); return *this;`
with no null check.  When `_root` is null this dereferences a null
`std::unique_ptr` (undefined behavior); the embedding returns `none` for that
case and `some` of the updated tree otherwise. -/
def Btree.unvisitNodes {T : Type} (t : Btree T) : Option (Btree T) :=
  match t.root with
  | none => none
  | some r => some { t with root := some (r.unvisit true) }

/-- The concrete comparator `cmp(a, b) = a < b` on natural numbers used by the
worked scenario of the spec. -/
def cmpLt : BtreeCmp Nat := fun a b => decide (a < b)

/-- All values stored in the subtree of a node, in preorder. -/
def BtreeNode.values {T : Type} : BtreeNode T → List T
  | .mk l r val _ =>
    val :: ((match l with | some ln => ln.values | none => []) ++
            (match r with | some rn => rn.values | none => []))

/-- Values stored under an optional child slot. -/
def BtreeNode.optValues {T : Type} : Option (BtreeNode T) → List T
  | some n => n.values
  | none => []

/-- The comparator-partition invariant: at every node, every value in the left
subtree satisfies `cmp value node.value = true` and every value in the right
subtree satisfies `cmp value node.value = false`. -/
def BtreeNode.inv {T : Type} (cmp : BtreeCmp T) : BtreeNode T → Prop
  | .mk l r val _ =>
    (∀ w ∈ BtreeNode.optValues l, cmp w val = true) ∧
    (∀ w ∈ BtreeNode.optValues r, cmp w val = false) ∧
    (match l with | some ln => ln.inv cmp | none => True) ∧
    (match r with | some rn => rn.inv cmp | none => True)

/-- The partition invariant for a whole tree (trivially true when empty). -/
def Btree.inv {T : Type} (t : Btree T) : Prop :=
  match t.root with
  | some r => r.inv t.cmp
  | none => True

/-- Every node in the subtree has `_visited = false`. -/
def BtreeNode.allUnvisited {T : Type} : BtreeNode T → Prop
  | .mk l r _ vis =>
    vis = false ∧
    (match l with | some ln => ln.allUnvisited | none => True) ∧
    (match r with | some rn => rn.allUnvisited | none => True)

/-- The visited-flag-free skeleton of a node: structure and stored values
only. -/
inductive BtreeShape (T : Type) : Type where
  | mk (left : Option (BtreeShape T)) (right : Option (BtreeShape T)) (value : T)

/-- Forget the visited flags, keeping structure and values. -/
def BtreeNode.toShape {T : Type} : BtreeNode T → BtreeShape T
  | .mk l r val _ =>
    .mk (match l with | some ln => some ln.toShape | none => none)
      (match r with | some rn => some rn.toShape | none => none) val

/-- Height of the subtree of a node: one plus the larger child height. -/
def BtreeNode.height {T : Type} : BtreeNode T → Nat
  | .mk l r _ _ =>
    1 + max (match l with | some ln => ln.height | none => 0)
        (match r with | some rn => rn.height | none => 0)

/-- Height of an optional child slot (0 when absent). -/
def BtreeNode.optHeight {T : Type} : Option (BtreeNode T) → Nat
  | some n => n.height
  | none => 0

/-- Fuel-bounded version of `BtreeNode::search`: each recursive call consumes
one unit of fuel; `none` means the fuel ran out before the call completed. -/
def BtreeNode.searchFuel {T : Type} [DecidableEq T] :
    Nat → BtreeNode T → T → BtreeCmp T → Option (Option T)
  | 0, _, _, _ => none
  | fuel + 1, .mk l r val _, v, cmp =>
    if val = v then some (some val)
    else if cmp v val then
      match l with
      | some ln => BtreeNode.searchFuel fuel ln v cmp
      | none => some none
    else
      match r with
      | some rn => BtreeNode.searchFuel fuel rn v cmp
      | none => some none

/-- Fuel-bounded version of `BtreeNode::insert`. -/
def BtreeNode.insertFuel {T : Type} [DecidableEq T] :
    Nat → BtreeNode T → T → BtreeCmp T → Bool → Option (BtreeNode T)
  | 0, _, _, _, _ => none
  | fuel + 1, .mk l r val vis, v, cmp, allow_duplicates =>
    if allow_duplicates = false ∧ v = val then
      some (.mk l r val vis)
    else if cmp v val then
      match l with
      | some ln =>
        (BtreeNode.insertFuel fuel ln v cmp allow_duplicates).map
          (fun ln2 => .mk (some ln2) r val vis)
      | none => some (.mk (some (BtreeNode.makeNode v)) r val vis)
    else
      match r with
      | some rn =>
        (BtreeNode.insertFuel fuel rn v cmp allow_duplicates).map
          (fun rn2 => .mk l (some rn2) val vis)
      | none => some (.mk l (some (BtreeNode.makeNode v)) val vis)

/-- Fuel-bounded version of `BtreeNode::unvisit`. -/
def BtreeNode.unvisitFuel {T : Type} :
    Nat → BtreeNode T → Bool → Option (BtreeNode T)
  | 0, _, _ => none
  | _ + 1, .mk l r val _, false => some (.mk l r val false)
  | fuel + 1, .mk l r val _, true =>
    match l with
    | some ln =>
      match BtreeNode.unvisitFuel fuel ln true with
      | some ln2 =>
        match r with
        | some rn =>
          (BtreeNode.unvisitFuel fuel rn true).map
            (fun rn2 => .mk (some ln2) (some rn2) val false)
        | none => some (.mk (some ln2) none val false)
      | none => none
    | none =>
      match r with
      | some rn =>
        (BtreeNode.unvisitFuel fuel rn true).map
          (fun rn2 => .mk none (some rn2) val false)
      | none => some (.mk none none val false)

/-- State-threading version of `BtreeNode::search`: the node is passed through
every recursive call and rebuilt on the way out, so that the claim that the
call leaves the tree unchanged is expressible. -/
def BtreeNode.searchThreaded {T : Type} [DecidableEq T] :
    BtreeNode T → T → BtreeCmp T → Option T × BtreeNode T
  | .mk l r val vis, v, cmp =>
    if val = v then (some val, .mk l r val vis)
    else if cmp v val then
      match l with
      | some ln =>
        (fun p => (p.1, BtreeNode.mk (some p.2) r val vis)) (ln.searchThreaded v cmp)
      | none => (none, .mk l r val vis)
    else
      match r with
      | some rn =>
        (fun p => (p.1, BtreeNode.mk l (some p.2) val vis)) (rn.searchThreaded v cmp)
      | none => (none, .mk l r val vis)

/-- State-threading version of `Btree::search`. -/
def Btree.searchThreaded {T : Type} [DecidableEq T]
    (t : Btree T) (v : T) : Option T × Btree T :=
  match t.root with
  | some r =>
    (fun p => (p.1, { t with root := some p.2 })) (r.searchThreaded v t.cmp)
  | none => (none, t)

/-- A node is strictly larger than the child in its left slot. -/
theorem BtreeNode.sizeOf_lt_of_left {T : Type} [SizeOf T] {n c : BtreeNode T}
    (h : n.left = some c) : sizeOf c < sizeOf n := by
  cases n with
  | mk l r val vis =>
    simp [BtreeNode.left] at h
    subst h
    simp
    omega

/-- A node is strictly larger than the child in its right slot. -/
theorem BtreeNode.sizeOf_lt_of_right {T : Type} [SizeOf T] {n c : BtreeNode T}
    (h : n.right = some c) : sizeOf c < sizeOf n := by
  cases n with
  | mk l r val vis =>
    simp [BtreeNode.right] at h
    subst h
    simp
    omega

/-- Written from the wording of the spec for `search` (section 4.1): if
`node.value == value`, return a reference to `node.value`; otherwise evaluate
`comparator(value, node.value)`, descend left if true, right if false; if the
chosen child is absent, return absent. -/
def BtreeNode.searchAsSpecified {T : Type} [DecidableEq T]
    (n : BtreeNode T) (v : T) (cmp : BtreeCmp T) : Option T :=
  if n.value = v then some n.value
  else if cmp v n.value then
    match hl : n.left with
    | some child => child.searchAsSpecified v cmp
    | none => none
  else
    match hr : n.right with
    | some child => child.searchAsSpecified v cmp
    | none => none
termination_by sizeOf n
decreasing_by
  · exact BtreeNode.sizeOf_lt_of_left hl
  · exact BtreeNode.sizeOf_lt_of_right hr

/-- Written from the wording of the spec for tree-level `search` (section 4.2):
absent immediately if root is absent; otherwise delegate to
`root.search(value, comparator)`. -/
def Btree.searchAsSpecified {T : Type} [DecidableEq T] (t : Btree T) (v : T) : Option T :=
  if h : t.root.isSome then (t.root.get h).search v t.cmp else none

/-- A concrete example tree from the worked scenario of the spec. -/
def exampleTree : Btree Nat := (Btree.new cmpLt true).insertList [5, 3, 8, 1]

/-- Structural induction principle for `BtreeNode`, stated over the optional
child slots (the nested-inductive recursor is awkward to use directly). -/
theorem BtreeNode.inductionOn {T : Type} {motive : BtreeNode T → Prop}
    (step : ∀ (l r : Option (BtreeNode T)) (v : T) (b : Bool),
      (∀ ln, l = some ln → motive ln) → (∀ rn, r = some rn → motive rn) →
      motive (.mk l r v b)) :
    ∀ n, motive n
  | .mk none none v b =>
      step none none v b (fun _ h => by cases h) (fun _ h => by cases h)
  | .mk none (some rn) v b =>
      step none (some rn) v b (fun _ h => by cases h)
        (fun x h => by cases h; exact inductionOn step rn)
  | .mk (some ln) none v b =>
      step (some ln) none v b
        (fun x h => by cases h; exact inductionOn step ln) (fun _ h => by cases h)
  | .mk (some ln) (some rn) v b =>
      step (some ln) (some rn) v b
        (fun x h => by cases h; exact inductionOn step ln)
        (fun x h => by cases h; exact inductionOn step rn)

/-- Unfolding: the duplicate-drop branch of `insert`. -/
theorem BtreeNode.insert_drop {T : Type} [DecidableEq T] (cmp : BtreeCmp T)
    (l r : Option (BtreeNode T)) (val : T) (vis : Bool) (v : T) (h : v = val) :
    (BtreeNode.mk l r val vis).insert v cmp false = .mk l r val vis := by
  subst h
  rw [BtreeNode.insert.eq_def]
  simp

/-- Unfolding: insert descending into an existing left child. -/
theorem BtreeNode.insert_left_some {T : Type} [DecidableEq T] (cmp : BtreeCmp T)
    (dup : Bool) (ln : BtreeNode T) (r : Option (BtreeNode T)) (val : T) (vis : Bool)
    (v : T) (hnd : ¬(dup = false ∧ v = val)) (hc : cmp v val = true) :
    (BtreeNode.mk (some ln) r val vis).insert v cmp dup
      = .mk (some (ln.insert v cmp dup)) r val vis := by
  rw [BtreeNode.insert.eq_def]
  simp [hnd, hc]

/-- Unfolding: insert creating a fresh left child. -/
theorem BtreeNode.insert_left_none {T : Type} [DecidableEq T] (cmp : BtreeCmp T)
    (dup : Bool) (r : Option (BtreeNode T)) (val : T) (vis : Bool)
    (v : T) (hnd : ¬(dup = false ∧ v = val)) (hc : cmp v val = true) :
    (BtreeNode.mk none r val vis).insert v cmp dup
      = .mk (some (BtreeNode.makeNode v)) r val vis := by
  rw [BtreeNode.insert.eq_def]
  simp [hnd, hc]

/-- Unfolding: insert descending into an existing right child. -/
theorem BtreeNode.insert_right_some {T : Type} [DecidableEq T] (cmp : BtreeCmp T)
    (dup : Bool) (l : Option (BtreeNode T)) (rn : BtreeNode T) (val : T) (vis : Bool)
    (v : T) (hnd : ¬(dup = false ∧ v = val)) (hc : cmp v val = false) :
    (BtreeNode.mk l (some rn) val vis).insert v cmp dup
      = .mk l (some (rn.insert v cmp dup)) val vis := by
  rw [BtreeNode.insert.eq_def]
  simp [hnd, hc]

/-- Unfolding: insert creating a fresh right child. -/
theorem BtreeNode.insert_right_none {T : Type} [DecidableEq T] (cmp : BtreeCmp T)
    (dup : Bool) (l : Option (BtreeNode T)) (val : T) (vis : Bool)
    (v : T) (hnd : ¬(dup = false ∧ v = val)) (hc : cmp v val = false) :
    (BtreeNode.mk l none val vis).insert v cmp dup
      = .mk l (some (BtreeNode.makeNode v)) val vis := by
  rw [BtreeNode.insert.eq_def]
  simp [hnd, hc]

/-- Unfolding: search succeeding at the current node. -/
theorem BtreeNode.search_found {T : Type} [DecidableEq T] (cmp : BtreeCmp T)
    (l r : Option (BtreeNode T)) (val : T) (vis : Bool) (v : T) (h : val = v) :
    (BtreeNode.mk l r val vis).search v cmp = some val := by
  subst h
  rw [BtreeNode.search.eq_def]
  simp

/-- Unfolding: search descending into an existing left child. -/
theorem BtreeNode.search_left_some {T : Type} [DecidableEq T] (cmp : BtreeCmp T)
    (ln : BtreeNode T) (r : Option (BtreeNode T)) (val : T) (vis : Bool) (v : T)
    (hne : ¬val = v) (hc : cmp v val = true) :
    (BtreeNode.mk (some ln) r val vis).search v cmp = ln.search v cmp := by
  rw [BtreeNode.search.eq_def]
  simp [hne, hc]

/-- Unfolding: search hitting an absent left child. -/
theorem BtreeNode.search_left_none {T : Type} [DecidableEq T] (cmp : BtreeCmp T)
    (r : Option (BtreeNode T)) (val : T) (vis : Bool) (v : T)
    (hne : ¬val = v) (hc : cmp v val = true) :
    (BtreeNode.mk none r val vis).search v cmp = none := by
  rw [BtreeNode.search.eq_def]
  simp [hne, hc]

/-- Unfolding: search descending into an existing right child. -/
theorem BtreeNode.search_right_some {T : Type} [DecidableEq T] (cmp : BtreeCmp T)
    (l : Option (BtreeNode T)) (rn : BtreeNode T) (val : T) (vis : Bool) (v : T)
    (hne : ¬val = v) (hc : cmp v val = false) :
    (BtreeNode.mk l (some rn) val vis).search v cmp = rn.search v cmp := by
  rw [BtreeNode.search.eq_def]
  simp [hne, hc]

/-- Unfolding: search hitting an absent right child. -/
theorem BtreeNode.search_right_none {T : Type} [DecidableEq T] (cmp : BtreeCmp T)
    (l : Option (BtreeNode T)) (val : T) (vis : Bool) (v : T)
    (hne : ¬val = v) (hc : cmp v val = false) :
    (BtreeNode.mk l none val vis).search v cmp = none := by
  rw [BtreeNode.search.eq_def]
  simp [hne, hc]

/-- Insert never changes the value stored at the node it is called on. -/
theorem BtreeNode.value_insert {T : Type} [DecidableEq T] (cmp : BtreeCmp T)
    (dup : Bool) (n : BtreeNode T) (v : T) :
    (n.insert v cmp dup).value = n.value := by
  cases n with
  | mk l r val vis =>
    rcases l with _ | ln <;> rcases r with _ | rn <;>
      rw [BtreeNode.insert.eq_def] <;> dsimp only <;> split_ifs <;> rfl

/-- Insert never changes the visited flag of the node it is called on. -/
theorem BtreeNode.isVisited_insert {T : Type} [DecidableEq T] (cmp : BtreeCmp T)
    (dup : Bool) (n : BtreeNode T) (v : T) :
    (n.insert v cmp dup).isVisited = n.isVisited := by
  cases n with
  | mk l r val vis =>
    rcases l with _ | ln <;> rcases r with _ | rn <;>
      rw [BtreeNode.insert.eq_def] <;> dsimp only <;> split_ifs <;> rfl

/-- Node-level search agrees with the description of the algorithm in the spec. -/
theorem BtreeNode.search_eq_spec {T : Type} [DecidableEq T]
    (v : T) (cmp : BtreeCmp T) (n : BtreeNode T) :
    n.search v cmp = n.searchAsSpecified v cmp := by
  induction n using BtreeNode.inductionOn with
  | step l r val vis ihl ihr =>
    rw [BtreeNode.search.eq_def, BtreeNode.searchAsSpecified.eq_def]
    dsimp only [BtreeNode.left, BtreeNode.right, BtreeNode.value]
    rcases l with _ | ln <;> rcases r with _ | rn <;>
      split_ifs <;> simp_all

/-- Whenever node-level search returns a value, it is the queried value. -/
theorem BtreeNode.search_some_eq {T : Type} [DecidableEq T]
    (v : T) (cmp : BtreeCmp T) (n : BtreeNode T) :
    ∀ w, n.search v cmp = some w → w = v := by
  induction n using BtreeNode.inductionOn with
  | step l r val vis ihl ihr =>
    intro w h
    rw [BtreeNode.search.eq_def] at h
    dsimp only at h
    rcases l with _ | ln <;> rcases r with _ | rn <;> split_ifs at h <;>
      simp_all

/-- C5: tree search is absent immediately when the root is absent and
otherwise delegates to the root; node search follows exactly one path,
returning the value of the node on equality, descending left when the comparator
is true and right when it is false, and returning absent at a missing child —
stated as agreement with `searchAsSpecified`, transcribed from the spec, plus
the fact that any returned value equals the query. -/
theorem btree_search_one_path {T : Type} [DecidableEq T]
    (t : Btree T) (n : BtreeNode T) (v : T) (cmp : BtreeCmp T) :
    t.search v = t.searchAsSpecified v ∧
    n.search v cmp = n.searchAsSpecified v cmp ∧
    (∀ w, n.search v cmp = some w → w = v) := by
  refine ⟨?_, BtreeNode.search_eq_spec v cmp n,
    fun w h => BtreeNode.search_some_eq v cmp n w h⟩
  obtain ⟨root, tcmp, dup⟩ := t
  rcases root with _ | r <;> rfl

/-- Witness for C5 at a concrete input. -/
theorem btree_search_one_path_witness : (8 : Nat) = 8 :=
  (btree_search_one_path exampleTree (BtreeNode.makeNode 8) 8 cmpLt).2.2 8 rfl

/-- C3 (code bug): `Btree::unvisitNodes` on an empty tree executes
`_root->unvisit(true)` on a null `std::unique_ptr`, which is undefined
behavior, not a completed no-op; the embedding returns `none` (no resulting
tree) on the empty tree. -/
theorem btree_unvisitNodes_empty_null_deref :
    (Btree.new cmpLt true).unvisitNodes = none := rfl

/-- C8: the worked scenario of the spec.  With comparator `a < b` and insert order
`[5, 3, 8, 1]`, `search 8` returns 8, `search 9` is absent, the root holds 5,
its left child 3, its right child 8, and the left child of node 3 is 1. -/
theorem btree_concrete_scenario :
    exampleTree.search 8 = some 8 ∧
    exampleTree.search 9 = none ∧
    Option.map BtreeNode.value exampleTree.root = some 5 ∧
    Option.map BtreeNode.value (Option.bind exampleTree.root BtreeNode.left) = some 3 ∧
    Option.map BtreeNode.value (Option.bind exampleTree.root BtreeNode.right) = some 8 ∧
    Option.map BtreeNode.value
      (Option.bind (Option.bind exampleTree.root BtreeNode.left) BtreeNode.left) = some 1 :=
  ⟨rfl, rfl, rfl, rfl, rfl, rfl⟩

/-- C2: `Btree::insert` makes the value the root node when the root is
absent, otherwise keeps the root node (same value, same visited flag) and
delegates to the insert of the root node with the stored comparator and duplicate
policy; the comparator and policy of the resulting tree are unchanged. -/
theorem btree_insert_root_behavior {T : Type} [DecidableEq T] (t : Btree T) (v : T) :
    ((t.insert v).cmp = t.cmp ∧ (t.insert v).allow_duplicates = t.allow_duplicates) ∧
    (t.root = none → (t.insert v).root = some (BtreeNode.makeNode v)) ∧
    (∀ r, t.root = some r →
      (t.insert v).root = some (r.insert v t.cmp t.allow_duplicates) ∧
      (r.insert v t.cmp t.allow_duplicates).value = r.value ∧
      (r.insert v t.cmp t.allow_duplicates).isVisited = r.isVisited) := by
  obtain ⟨root, tcmp, dup⟩ := t
  rcases root with _ | r <;>
    exact ⟨⟨rfl, rfl⟩, by simp [Btree.insert], by
      simp [Btree.insert, BtreeNode.value_insert, BtreeNode.isVisited_insert]⟩

/-- Witness for C2 at a concrete input. -/
theorem btree_insert_root_behavior_witness :
    ((Btree.new cmpLt true).insert 5).root = some (BtreeNode.makeNode 5) :=
  (btree_insert_root_behavior (Btree.new cmpLt true) 5).2.1 rfl

/-- The state-threading node search returns the searched node unchanged. -/
theorem BtreeNode.searchThreaded_pure {T : Type} [DecidableEq T]
    (v : T) (cmp : BtreeCmp T) (n : BtreeNode T) :
    n.searchThreaded v cmp = (n.search v cmp, n) := by
  induction n using BtreeNode.inductionOn with
  | step l r val vis ihl ihr =>
    rw [BtreeNode.searchThreaded.eq_def, BtreeNode.search.eq_def]
    dsimp only
    rcases l with _ | ln <;> rcases r with _ | rn <;> split_ifs <;> simp_all

/-- C10: search is read-only.  Threading the tree state through every
recursive call of `search` and rebuilding it on the way out returns exactly
the original node and tree: structure, values and visited flags are all
unchanged by a search. -/
theorem btree_search_leaves_tree_unchanged {T : Type} [DecidableEq T]
    (t : Btree T) (n : BtreeNode T) (v : T) (cmp : BtreeCmp T) :
    n.searchThreaded v cmp = (n.search v cmp, n) ∧
    t.searchThreaded v = (t.search v, t) := by
  refine ⟨BtreeNode.searchThreaded_pure v cmp n, ?_⟩
  obtain ⟨root, tcmp, dup⟩ := t
  rcases root with _ | r
  · rfl
  · simp [Btree.searchThreaded, Btree.search, BtreeNode.searchThreaded_pure]

/-- Inserting the value a fresh single node already holds, with duplicates
disallowed, changes nothing. -/
theorem BtreeNode.insert_makeNode_self {T : Type} [DecidableEq T]
    (cmp : BtreeCmp T) (w : T) :
    (BtreeNode.makeNode w).insert w cmp false = BtreeNode.makeNode w :=
  BtreeNode.insert_drop cmp none none w false w rfl

/-- With duplicates disallowed, inserting the same value twice in direct
succession is the same as inserting it once. -/
theorem BtreeNode.insert_insert_self {T : Type} [DecidableEq T]
    (cmp : BtreeCmp T) (w : T) (n : BtreeNode T) :
    (n.insert w cmp false).insert w cmp false = n.insert w cmp false := by
  induction n using BtreeNode.inductionOn with
  | step l r val vis ihl ihr =>
    by_cases hv : w = val
    · rw [BtreeNode.insert_drop cmp l r val vis w hv,
        BtreeNode.insert_drop cmp l r val vis w hv]
    · have hnd : ¬(false = false ∧ w = val) := by simp [hv]
      by_cases hc : cmp w val = true
      · rcases l with _ | ln
        · rw [BtreeNode.insert_left_none cmp false r val vis w hnd hc,
            BtreeNode.insert_left_some cmp false (BtreeNode.makeNode w) r val vis w hnd hc,
            BtreeNode.insert_makeNode_self]
        · rw [BtreeNode.insert_left_some cmp false ln r val vis w hnd hc,
            BtreeNode.insert_left_some cmp false (ln.insert w cmp false) r val vis w hnd hc,
            ihl ln rfl]
      · have hc2 : cmp w val = false := by simpa using hc
        rcases r with _ | rn
        · rw [BtreeNode.insert_right_none cmp false l val vis w hnd hc2,
            BtreeNode.insert_right_some cmp false l (BtreeNode.makeNode w) val vis w hnd hc2,
            BtreeNode.insert_makeNode_self]
        · rw [BtreeNode.insert_right_some cmp false l rn val vis w hnd hc2,
            BtreeNode.insert_right_some cmp false l (rn.insert w cmp false) val vis w hnd hc2,
            ihr rn rfl]

/-- C4: with duplicates disallowed, an insert of a value equal to the current
value of the current node is silently dropped, leaving the subtree unchanged, and a
tree-level insert of the same value twice in direct succession leaves the
tree unchanged after the second insert. -/
theorem btree_duplicate_insert_dropped {T : Type} [DecidableEq T]
    (cmp : BtreeCmp T) (n : BtreeNode T) (v w : T) (t : Btree T)
    (hv : v = n.value) (hdup : t.allow_duplicates = false) :
    n.insert v cmp false = n ∧ (t.insert w).insert w = t.insert w := by
  constructor
  · obtain ⟨l, r, val, vis⟩ := n
    exact BtreeNode.insert_drop cmp l r val vis v
      (by simpa [BtreeNode.value] using hv)
  · obtain ⟨root, tcmp, dup⟩ := t
    have hdup2 : dup = false := hdup
    subst hdup2
    rcases root with _ | r
    · simp [Btree.insert, BtreeNode.insert_makeNode_self]
    · simp [Btree.insert, BtreeNode.insert_insert_self]

/-- Witness for C4 at concrete inputs. -/
theorem btree_duplicate_insert_dropped_witness :
    (BtreeNode.makeNode 5).insert 5 cmpLt false = BtreeNode.makeNode 5 ∧
    ((Btree.new cmpLt false).insert 7).insert 7 = (Btree.new cmpLt false).insert 7 :=
  btree_duplicate_insert_dropped cmpLt (BtreeNode.makeNode 5) 5 7
    (Btree.new cmpLt false) rfl rfl

/-- Search succeeds immediately at a node whose value is the query. -/
theorem BtreeNode.search_isSome_of_value_eq {T : Type} [DecidableEq T]
    (cmp : BtreeCmp T) (n : BtreeNode T) (v : T) (h : n.value = v) :
    (n.search v cmp).isSome = true := by
  obtain ⟨l, r, val, vis⟩ := n
  rw [BtreeNode.search_found cmp l r val vis v (by simpa [BtreeNode.value] using h)]
  rfl

/-- After inserting `v` into the subtree of a node, searching for `v` with the
same comparator succeeds, for either duplicate policy. -/
theorem BtreeNode.search_insert_isSome {T : Type} [DecidableEq T]
    (cmp : BtreeCmp T) (dup : Bool) (v : T) (n : BtreeNode T) :
    ((n.insert v cmp dup).search v cmp).isSome = true := by
  induction n using BtreeNode.inductionOn with
  | step l r val vis ihl ihr =>
    by_cases hnd : dup = false ∧ v = val
    · obtain ⟨hd, hv⟩ := hnd
      subst hd
      rw [BtreeNode.insert_drop cmp l r val vis v hv,
        BtreeNode.search_found cmp l r val vis v hv.symm]
      rfl
    · by_cases hv : val = v
      · exact BtreeNode.search_isSome_of_value_eq cmp _ v
          ((BtreeNode.value_insert cmp dup (BtreeNode.mk l r val vis) v).trans hv)
      · by_cases hc : cmp v val = true
        · rcases l with _ | ln
          · rw [BtreeNode.insert_left_none cmp dup r val vis v hnd hc,
              BtreeNode.search_left_some cmp (BtreeNode.makeNode v) r val vis v hv hc]
            exact BtreeNode.search_isSome_of_value_eq cmp (BtreeNode.makeNode v) v rfl
          · rw [BtreeNode.insert_left_some cmp dup ln r val vis v hnd hc,
              BtreeNode.search_left_some cmp (ln.insert v cmp dup) r val vis v hv hc]
            exact ihl ln rfl
        · have hc2 : cmp v val = false := by simpa using hc
          rcases r with _ | rn
          · rw [BtreeNode.insert_right_none cmp dup l val vis v hnd hc2,
              BtreeNode.search_right_some cmp l (BtreeNode.makeNode v) val vis v hv hc2]
            exact BtreeNode.search_isSome_of_value_eq cmp (BtreeNode.makeNode v) v rfl
          · rw [BtreeNode.insert_right_some cmp dup l rn val vis v hnd hc2,
              BtreeNode.search_right_some cmp l (rn.insert v cmp dup) val vis v hv hc2]
            exact ihr rn rfl

/-- A successful search stays successful after any further insert with the
same comparator. -/
theorem BtreeNode.search_isSome_insert {T : Type} [DecidableEq T]
    (cmp : BtreeCmp T) (dup : Bool) (v w : T) (n : BtreeNode T)
    (h : (n.search v cmp).isSome = true) :
    ((n.insert w cmp dup).search v cmp).isSome = true := by
  induction n using BtreeNode.inductionOn with
  | step l r val vis ihl ihr =>
    by_cases hnd : dup = false ∧ w = val
    · obtain ⟨hd, hw⟩ := hnd
      subst hd
      rw [BtreeNode.insert_drop cmp l r val vis w hw]
      exact h
    · by_cases hv : val = v
      · exact BtreeNode.search_isSome_of_value_eq cmp _ v
          ((BtreeNode.value_insert cmp dup (BtreeNode.mk l r val vis) w).trans hv)
      · by_cases hcv : cmp v val = true
        · rcases l with _ | ln
          · rw [BtreeNode.search_left_none cmp r val vis v hv hcv] at h
            simp at h
          · rw [BtreeNode.search_left_some cmp ln r val vis v hv hcv] at h
            by_cases hc : cmp w val = true
            · rw [BtreeNode.insert_left_some cmp dup ln r val vis w hnd hc,
                BtreeNode.search_left_some cmp (ln.insert w cmp dup) r val vis v hv hcv]
              exact ihl ln rfl h
            · have hc2 : cmp w val = false := by simpa using hc
              rcases r with _ | rn
              · rw [BtreeNode.insert_right_none cmp dup (some ln) val vis w hnd hc2,
                  BtreeNode.search_left_some cmp ln (some (BtreeNode.makeNode w)) val vis v hv hcv]
                exact h
              · rw [BtreeNode.insert_right_some cmp dup (some ln) rn val vis w hnd hc2,
                  BtreeNode.search_left_some cmp ln (some (rn.insert w cmp dup)) val vis v hv hcv]
                exact h
        · have hcv2 : cmp v val = false := by simpa using hcv
          rcases r with _ | rn
          · rw [BtreeNode.search_right_none cmp l val vis v hv hcv2] at h
            simp at h
          · rw [BtreeNode.search_right_some cmp l rn val vis v hv hcv2] at h
            by_cases hc : cmp w val = true
            · rcases l with _ | ln
              · rw [BtreeNode.insert_left_none cmp dup (some rn) val vis w hnd hc,
                  BtreeNode.search_right_some cmp (some (BtreeNode.makeNode w)) rn val vis v hv hcv2]
                exact h
              · rw [BtreeNode.insert_left_some cmp dup ln (some rn) val vis w hnd hc,
                  BtreeNode.search_right_some cmp (some (ln.insert w cmp dup)) rn val vis v hv hcv2]
                exact h
            · have hc2 : cmp w val = false := by simpa using hc
              rw [BtreeNode.insert_right_some cmp dup l rn val vis w hnd hc2,
                BtreeNode.search_right_some cmp l (rn.insert w cmp dup) val vis v hv hcv2]
              exact ihr rn rfl h

/-- Tree-level: a value just inserted is found by search. -/
theorem Btree.search_isSome_after_insert {T : Type} [DecidableEq T] (t : Btree T) (v : T) :
    ((t.insert v).search v).isSome = true := by
  obtain ⟨root, tcmp, dup⟩ := t
  rcases root with _ | r
  · simp only [Btree.insert, Btree.search]
    exact BtreeNode.search_isSome_of_value_eq tcmp (BtreeNode.makeNode v) v rfl
  · simp only [Btree.insert, Btree.search]
    exact BtreeNode.search_insert_isSome tcmp dup v r

/-- Tree-level: a successful search stays successful after a further insert. -/
theorem Btree.search_isSome_preserved {T : Type} [DecidableEq T] (t : Btree T) (v w : T)
    (h : (t.search v).isSome = true) : ((t.insert w).search v).isSome = true := by
  obtain ⟨root, tcmp, dup⟩ := t
  rcases root with _ | r
  · simp [Btree.search] at h
  · simp only [Btree.insert, Btree.search] at h ⊢
    exact BtreeNode.search_isSome_insert tcmp dup v w r h

/-- Search after a sequence of inserts succeeds for every member of the
sequence (and for anything already findable before the sequence). -/
theorem Btree.search_insertList_isSome {T : Type} [DecidableEq T] (vs : List T) :
    ∀ (t : Btree T) (v : T), v ∈ vs ∨ (t.search v).isSome = true →
      ((t.insertList vs).search v).isSome = true := by
  induction vs with
  | nil =>
    intro t v h
    rcases h with h | h
    · cases h
    · simpa [Btree.insertList] using h
  | cons x xs ih =>
    intro t v h
    rw [Btree.insertList, List.foldl_cons]
    rcases h with h | h
    · rcases List.mem_cons.mp h with h | h
      · subst h
        exact ih (t.insert v) v (Or.inr (Btree.search_isSome_after_insert t v))
      · exact ih (t.insert x) v (Or.inl h)
    · exact ih (t.insert x) v (Or.inr (Btree.search_isSome_preserved t v x h))

/-- Tree-level: whatever search returns equals the queried value. -/
theorem Btree.search_result_eq {T : Type} [DecidableEq T] (t : Btree T) (v w : T)
    (h : t.search v = some w) : w = v := by
  obtain ⟨root, tcmp, dup⟩ := t
  rcases root with _ | r
  · simp [Btree.search] at h
  · exact BtreeNode.search_some_eq v tcmp r w h

/-- C1: for every insert sequence with a fixed comparator, `search v`
returns a stored value equal to `v` for every `v` in the sequence — in
particular for every `v` inserted under `allow_duplicates = true` and for
every first-inserted `v` under `allow_duplicates = false`. -/
theorem btree_search_finds_inserted {T : Type} [DecidableEq T]
    (cmp : BtreeCmp T) (dup : Bool) (vs : List T) (v : T) (hv : v ∈ vs) :
    ((((Btree.new cmp dup).insertList vs).search v).isSome = true) ∧
    (∀ w, ((Btree.new cmp dup).insertList vs).search v = some w → w = v) :=
  ⟨Btree.search_insertList_isSome vs (Btree.new cmp dup) v (Or.inl hv),
    fun w h => Btree.search_result_eq ((Btree.new cmp dup).insertList vs) v w h⟩

/-- Witness for C1 at a concrete input. -/
theorem btree_search_finds_inserted_witness :
    ((((Btree.new cmpLt true).insertList [5, 3, 8, 1]).search 3).isSome = true) ∧
    (∀ w, ((Btree.new cmpLt true).insertList [5, 3, 8, 1]).search 3 = some w → w = 3) :=
  btree_search_finds_inserted cmpLt true [5, 3, 8, 1] 3 (by decide)

/-- Unfolding of `values` on a constructed node. -/
theorem BtreeNode.values_mk {T : Type} (l r : Option (BtreeNode T)) (val : T) (vis : Bool) :
    (BtreeNode.mk l r val vis).values
      = val :: (BtreeNode.optValues l ++ BtreeNode.optValues r) := by
  rw [BtreeNode.values.eq_def]
  rcases l with _ | ln <;> rcases r with _ | rn <;> rfl

/-- The subtree of a fresh node holds exactly its own value. -/
theorem BtreeNode.values_makeNode {T : Type} (v : T) :
    (BtreeNode.makeNode v).values = [v] := by
  rw [BtreeNode.makeNode, BtreeNode.values_mk]
  rfl

/-- Unfolding of the partition invariant on a constructed node. -/
theorem BtreeNode.inv_mk {T : Type} (cmp : BtreeCmp T)
    (l r : Option (BtreeNode T)) (val : T) (vis : Bool) :
    (BtreeNode.mk l r val vis).inv cmp ↔
      ((∀ w ∈ BtreeNode.optValues l, cmp w val = true) ∧
       (∀ w ∈ BtreeNode.optValues r, cmp w val = false) ∧
       (∀ ln, l = some ln → ln.inv cmp) ∧
       (∀ rn, r = some rn → rn.inv cmp)) := by
  rw [BtreeNode.inv.eq_def]
  rcases l with _ | ln <;> rcases r with _ | rn <;> simp

/-- A fresh single node satisfies the partition invariant. -/
theorem BtreeNode.inv_makeNode {T : Type} (cmp : BtreeCmp T) (v : T) :
    (BtreeNode.makeNode v).inv cmp := by
  rw [BtreeNode.makeNode, BtreeNode.inv_mk]
  simp [BtreeNode.optValues]

/-- Everything stored after an insert is either the inserted value or was
stored before. -/
theorem BtreeNode.mem_values_insert {T : Type} [DecidableEq T]
    (cmp : BtreeCmp T) (dup : Bool) (v : T) (n : BtreeNode T) :
    ∀ w ∈ (n.insert v cmp dup).values, w = v ∨ w ∈ n.values := by
  induction n using BtreeNode.inductionOn with
  | step l r val vis ihl ihr =>
    intro w hw
    by_cases hnd : dup = false ∧ v = val
    · obtain ⟨hd, hv⟩ := hnd
      subst hd
      rw [BtreeNode.insert_drop cmp l r val vis v hv] at hw
      exact Or.inr hw
    · by_cases hc : cmp v val = true
      · rcases l with _ | ln
        · rw [BtreeNode.insert_left_none cmp dup r val vis v hnd hc] at hw
          rw [BtreeNode.values_mk] at hw ⊢
          simp only [BtreeNode.optValues, BtreeNode.values_makeNode,
            List.mem_cons, List.mem_append] at hw ⊢
          tauto
        · rw [BtreeNode.insert_left_some cmp dup ln r val vis v hnd hc] at hw
          rw [BtreeNode.values_mk] at hw ⊢
          simp only [BtreeNode.optValues, List.mem_cons, List.mem_append] at hw ⊢
          rcases hw with hw | hw | hw
          · tauto
          · rcases ihl ln rfl w hw with h2 | h2 <;> tauto
          · tauto
      · have hc2 : cmp v val = false := by simpa using hc
        rcases r with _ | rn
        · rw [BtreeNode.insert_right_none cmp dup l val vis v hnd hc2] at hw
          rw [BtreeNode.values_mk] at hw ⊢
          simp only [BtreeNode.optValues, BtreeNode.values_makeNode,
            List.mem_cons, List.mem_append] at hw ⊢
          tauto
        · rw [BtreeNode.insert_right_some cmp dup l rn val vis v hnd hc2] at hw
          rw [BtreeNode.values_mk] at hw ⊢
          simp only [BtreeNode.optValues, List.mem_cons, List.mem_append] at hw ⊢
          rcases hw with hw | hw | hw
          · tauto
          · tauto
          · rcases ihr rn rfl w hw with h2 | h2 <;> tauto

/-- Node-level: insert preserves the partition invariant. -/
theorem BtreeNode.inv_insert {T : Type} [DecidableEq T]
    (cmp : BtreeCmp T) (dup : Bool) (v : T) (n : BtreeNode T) (h : n.inv cmp) :
    (n.insert v cmp dup).inv cmp := by
  induction n using BtreeNode.inductionOn with
  | step l r val vis ihl ihr =>
    rw [BtreeNode.inv_mk] at h
    obtain ⟨hL, hR, hLi, hRi⟩ := h
    by_cases hnd : dup = false ∧ v = val
    · obtain ⟨hd, hv⟩ := hnd
      subst hd
      rw [BtreeNode.insert_drop cmp l r val vis v hv, BtreeNode.inv_mk]
      exact ⟨hL, hR, hLi, hRi⟩
    · by_cases hc : cmp v val = true
      · rcases l with _ | ln
        · rw [BtreeNode.insert_left_none cmp dup r val vis v hnd hc, BtreeNode.inv_mk]
          refine ⟨?_, hR, ?_, hRi⟩
          · intro w hw
            simp only [BtreeNode.optValues, BtreeNode.values_makeNode,
              List.mem_singleton] at hw
            subst hw
            exact hc
          · intro ln2 h2
            cases h2
            exact BtreeNode.inv_makeNode cmp v
        · rw [BtreeNode.insert_left_some cmp dup ln r val vis v hnd hc, BtreeNode.inv_mk]
          refine ⟨?_, hR, ?_, hRi⟩
          · intro w hw
            simp only [BtreeNode.optValues] at hw
            rcases BtreeNode.mem_values_insert cmp dup v ln w hw with h2 | h2
            · subst h2
              exact hc
            · exact hL w (by simpa [BtreeNode.optValues] using h2)
          · intro ln2 h2
            cases h2
            exact ihl ln rfl (hLi ln rfl)
      · have hc2 : cmp v val = false := by simpa using hc
        rcases r with _ | rn
        · rw [BtreeNode.insert_right_none cmp dup l val vis v hnd hc2, BtreeNode.inv_mk]
          refine ⟨hL, ?_, hLi, ?_⟩
          · intro w hw
            simp only [BtreeNode.optValues, BtreeNode.values_makeNode,
              List.mem_singleton] at hw
            subst hw
            exact hc2
          · intro rn2 h2
            cases h2
            exact BtreeNode.inv_makeNode cmp v
        · rw [BtreeNode.insert_right_some cmp dup l rn val vis v hnd hc2, BtreeNode.inv_mk]
          refine ⟨hL, ?_, hLi, ?_⟩
          · intro w hw
            simp only [BtreeNode.optValues] at hw
            rcases BtreeNode.mem_values_insert cmp dup v rn w hw with h2 | h2
            · subst h2
              exact hc2
            · exact hR w (by simpa [BtreeNode.optValues] using h2)
          · intro rn2 h2
            cases h2
            exact ihr rn rfl (hRi rn rfl)

/-- Tree-level: insert preserves the partition invariant. -/
theorem Btree.insert_preserves_inv {T : Type} [DecidableEq T] (t : Btree T) (v : T) (h : t.inv) :
    (t.insert v).inv := by
  obtain ⟨root, tcmp, dup⟩ := t
  rcases root with _ | r
  · simp only [Btree.insert, Btree.inv]
    exact BtreeNode.inv_makeNode tcmp v
  · simp only [Btree.insert, Btree.inv] at h ⊢
    exact BtreeNode.inv_insert tcmp dup v r h

/-- The partition invariant holds after any sequence of inserts into an
invariant tree. -/
theorem Btree.insert_preserves_invList {T : Type} [DecidableEq T] (vs : List T) :
    ∀ t : Btree T, t.inv → (t.insertList vs).inv := by
  induction vs with
  | nil =>
    intro t h
    simpa [Btree.insertList] using h
  | cons x xs ih =>
    intro t h
    rw [Btree.insertList, List.foldl_cons]
    exact ih (t.insert x) (Btree.insert_preserves_inv t x h)

/-- C6: in any tree built by inserts with a fixed comparator, the left subtree of every
node holds only values `w` with `cmp w node.value = true` and its
right subtree only values with `cmp w node.value = false`. -/
theorem btree_insert_partition_invariant {T : Type} [DecidableEq T]
    (cmp : BtreeCmp T) (dup : Bool) (vs : List T) :
    ((Btree.new cmp dup).insertList vs).inv :=
  Btree.insert_preserves_invList vs (Btree.new cmp dup) trivial

/-- Unfolding: `unvisit true` on a node with no children. -/
theorem BtreeNode.unvisit_true_nn {T : Type} (val : T) (vis : Bool) :
    (BtreeNode.mk none none val vis).unvisit true = .mk none none val false := rfl

/-- Unfolding: `unvisit true` on a node with only a right child. -/
theorem BtreeNode.unvisit_true_ns {T : Type} (rn : BtreeNode T) (val : T) (vis : Bool) :
    (BtreeNode.mk none (some rn) val vis).unvisit true
      = .mk none (some (rn.unvisit true)) val false := rfl

/-- Unfolding: `unvisit true` on a node with only a left child. -/
theorem BtreeNode.unvisit_true_sn {T : Type} (ln : BtreeNode T) (val : T) (vis : Bool) :
    (BtreeNode.mk (some ln) none val vis).unvisit true
      = .mk (some (ln.unvisit true)) none val false := rfl

/-- Unfolding: `unvisit true` on a node with both children. -/
theorem BtreeNode.unvisit_true_ss {T : Type} (ln rn : BtreeNode T) (val : T) (vis : Bool) :
    (BtreeNode.mk (some ln) (some rn) val vis).unvisit true
      = .mk (some (ln.unvisit true)) (some (rn.unvisit true)) val false := rfl

/-- Unfolding of `allUnvisited` on a constructed node. -/
theorem BtreeNode.allUnvisited_mk {T : Type} (l r : Option (BtreeNode T))
    (val : T) (vis : Bool) :
    (BtreeNode.mk l r val vis).allUnvisited ↔
      (vis = false ∧ (∀ ln, l = some ln → ln.allUnvisited) ∧
        (∀ rn, r = some rn → rn.allUnvisited)) := by
  rw [BtreeNode.allUnvisited.eq_def]
  rcases l with _ | ln <;> rcases r with _ | rn <;> simp

/-- After `unvisit true`, every node in the subtree is unvisited. -/
theorem BtreeNode.allUnvisited_unvisit {T : Type} (n : BtreeNode T) :
    (n.unvisit true).allUnvisited := by
  induction n using BtreeNode.inductionOn with
  | step l r val vis ihl ihr =>
    rcases l with _ | ln <;> rcases r with _ | rn
    · rw [BtreeNode.unvisit_true_nn, BtreeNode.allUnvisited_mk]
      exact ⟨rfl, fun x hx => (by cases hx), fun x hx => (by cases hx)⟩
    · rw [BtreeNode.unvisit_true_ns, BtreeNode.allUnvisited_mk]
      exact ⟨rfl, fun x hx => (by cases hx),
        fun x hx => (by cases hx; exact ihr rn rfl)⟩
    · rw [BtreeNode.unvisit_true_sn, BtreeNode.allUnvisited_mk]
      exact ⟨rfl, fun x hx => (by cases hx; exact ihl ln rfl),
        fun x hx => (by cases hx)⟩
    · rw [BtreeNode.unvisit_true_ss, BtreeNode.allUnvisited_mk]
      exact ⟨rfl, fun x hx => (by cases hx; exact ihl ln rfl),
        fun x hx => (by cases hx; exact ihr rn rfl)⟩

/-- Unfolding of `toShape` on a constructed node. -/
theorem BtreeNode.toShape_mk {T : Type} (l r : Option (BtreeNode T))
    (val : T) (vis : Bool) :
    (BtreeNode.mk l r val vis).toShape
      = BtreeShape.mk (Option.map BtreeNode.toShape l)
          (Option.map BtreeNode.toShape r) val := by
  rcases l with _ | ln <;> rcases r with _ | rn <;> rfl

/-- Clearing flags with `unvisit true` changes no structure and no stored value. -/
theorem BtreeNode.toShape_unvisit {T : Type} (n : BtreeNode T) :
    (n.unvisit true).toShape = n.toShape := by
  induction n using BtreeNode.inductionOn with
  | step l r val vis ihl ihr =>
    rcases l with _ | ln <;> rcases r with _ | rn
    · rfl
    · rw [BtreeNode.unvisit_true_ns, BtreeNode.toShape_mk, BtreeNode.toShape_mk]
      simp [ihr rn rfl]
    · rw [BtreeNode.unvisit_true_sn, BtreeNode.toShape_mk, BtreeNode.toShape_mk]
      simp [ihl ln rfl]
    · rw [BtreeNode.unvisit_true_ss, BtreeNode.toShape_mk, BtreeNode.toShape_mk]
      simp [ihl ln rfl, ihr rn rfl]

/-- C7: on a non-empty tree, `unvisitNodes` completes, clears the visited
flag of every node, and leaves the structure of the tree,, stored values,
comparator and duplicate policy unchanged. -/
theorem btree_unvisitNodes_clears_all {T : Type} (t : Btree T) (r : BtreeNode T)
    (h : t.root = some r) :
    ∃ t2, t.unvisitNodes = some t2 ∧ t2.cmp = t.cmp ∧
      t2.allow_duplicates = t.allow_duplicates ∧
      ∃ r2, t2.root = some r2 ∧ r2.allUnvisited ∧ r2.toShape = r.toShape := by
  obtain ⟨root, tcmp, dup⟩ := t
  replace h : root = some r := h
  subst h
  exact ⟨_, rfl, rfl, rfl, _, rfl, BtreeNode.allUnvisited_unvisit r,
    BtreeNode.toShape_unvisit r⟩

/-- Witness for C7 at a concrete input. -/
theorem btree_unvisitNodes_clears_all_witness :
    ∃ t2, ((Btree.new cmpLt true).insert 5).unvisitNodes = some t2 ∧
      t2.cmp = ((Btree.new cmpLt true).insert 5).cmp ∧
      t2.allow_duplicates = ((Btree.new cmpLt true).insert 5).allow_duplicates ∧
      ∃ r2, t2.root = some r2 ∧ r2.allUnvisited ∧
        r2.toShape = (BtreeNode.makeNode 5).toShape :=
  btree_unvisitNodes_clears_all ((Btree.new cmpLt true).insert 5)
    (BtreeNode.makeNode 5) rfl

/-- Unfolding of `height` on a constructed node. -/
theorem BtreeNode.height_mk {T : Type} (l r : Option (BtreeNode T))
    (val : T) (vis : Bool) :
    (BtreeNode.mk l r val vis).height
      = 1 + max (BtreeNode.optHeight l) (BtreeNode.optHeight r) := by
  rw [BtreeNode.height.eq_def]
  rcases l with _ | ln <;> rcases r with _ | rn <;> rfl

/-- Function `search` completes within fuel equal to the subtree height: its recursion
depth is bounded by the height. -/
theorem BtreeNode.searchFuel_eq {T : Type} [DecidableEq T]
    (v : T) (cmp : BtreeCmp T) (n : BtreeNode T) :
    ∀ fuel, n.height ≤ fuel →
      BtreeNode.searchFuel fuel n v cmp = some (n.search v cmp) := by
  induction n using BtreeNode.inductionOn with
  | step l r val vis ihl ihr =>
    intro fuel hf
    rw [BtreeNode.height_mk] at hf
    cases fuel with
    | zero => omega
    | succ f =>
      rw [BtreeNode.searchFuel.eq_def]
      dsimp only
      by_cases hv : val = v
      · rw [BtreeNode.search_found cmp l r val vis v hv]
        simp [hv]
      · by_cases hc : cmp v val = true
        · rcases l with _ | ln
          · rw [BtreeNode.search_left_none cmp r val vis v hv hc]
            simp [hv, hc]
          · rw [BtreeNode.search_left_some cmp ln r val vis v hv hc]
            have hln : ln.height ≤ f := by
              simp only [BtreeNode.optHeight] at hf
              omega
            simpa [hv, hc] using ihl ln rfl f hln
        · have hc2 : cmp v val = false := by simpa using hc
          rcases r with _ | rn
          · rw [BtreeNode.search_right_none cmp l val vis v hv hc2]
            simp [hv, hc2]
          · rw [BtreeNode.search_right_some cmp l rn val vis v hv hc2]
            have hrn : rn.height ≤ f := by
              simp only [BtreeNode.optHeight] at hf
              omega
            simpa [hv, hc2] using ihr rn rfl f hrn

/-- Function `insert` completes within fuel equal to the subtree height. -/
theorem BtreeNode.insertFuel_eq {T : Type} [DecidableEq T]
    (v : T) (cmp : BtreeCmp T) (dup : Bool) (n : BtreeNode T) :
    ∀ fuel, n.height ≤ fuel →
      BtreeNode.insertFuel fuel n v cmp dup = some (n.insert v cmp dup) := by
  induction n using BtreeNode.inductionOn with
  | step l r val vis ihl ihr =>
    intro fuel hf
    rw [BtreeNode.height_mk] at hf
    cases fuel with
    | zero => omega
    | succ f =>
      rw [BtreeNode.insertFuel.eq_def]
      dsimp only
      by_cases hnd : dup = false ∧ v = val
      · obtain ⟨hd, hv⟩ := hnd
        subst hd
        rw [BtreeNode.insert_drop cmp l r val vis v hv]
        simp [hv]
      · by_cases hc : cmp v val = true
        · rcases l with _ | ln
          · rw [BtreeNode.insert_left_none cmp dup r val vis v hnd hc]
            simp [hnd, hc]
          · rw [BtreeNode.insert_left_some cmp dup ln r val vis v hnd hc]
            have hln : ln.height ≤ f := by
              simp only [BtreeNode.optHeight] at hf
              omega
            simp [hnd, hc, ihl ln rfl f hln]
        · have hc2 : cmp v val = false := by simpa using hc
          rcases r with _ | rn
          · rw [BtreeNode.insert_right_none cmp dup l val vis v hnd hc2]
            simp [hnd, hc2]
          · rw [BtreeNode.insert_right_some cmp dup l rn val vis v hnd hc2]
            have hrn : rn.height ≤ f := by
              simp only [BtreeNode.optHeight] at hf
              omega
            simp [hnd, hc2, ihr rn rfl f hrn]

/-- Function `unvisit` completes within fuel equal to the subtree height. -/
theorem BtreeNode.unvisitFuel_eq {T : Type} (b : Bool) (n : BtreeNode T) :
    ∀ fuel, n.height ≤ fuel →
      BtreeNode.unvisitFuel fuel n b = some (n.unvisit b) := by
  induction n using BtreeNode.inductionOn with
  | step l r val vis ihl ihr =>
    intro fuel hf
    rw [BtreeNode.height_mk] at hf
    cases fuel with
    | zero => omega
    | succ f =>
      cases b with
      | false =>
        rw [BtreeNode.unvisitFuel.eq_def, BtreeNode.unvisit.eq_def]
        rfl
      | true =>
        rw [BtreeNode.unvisitFuel.eq_def]
        dsimp only
        rcases l with _ | ln <;> rcases r with _ | rn
        · rw [BtreeNode.unvisit_true_nn]
        · rw [BtreeNode.unvisit_true_ns]
          have hrn : rn.height ≤ f := by
            simp only [BtreeNode.optHeight] at hf
            omega
          simp [ihr rn rfl f hrn]
        · rw [BtreeNode.unvisit_true_sn]
          have hln : ln.height ≤ f := by
            simp only [BtreeNode.optHeight] at hf
            omega
          simp [ihl ln rfl f hln]
        · rw [BtreeNode.unvisit_true_ss]
          have hln : ln.height ≤ f := by
            simp only [BtreeNode.optHeight] at hf
            omega
          have hrn : rn.height ≤ f := by
            simp only [BtreeNode.optHeight] at hf
            omega
          simp [ihl ln rfl f hln, ihr rn rfl f hrn]

/-- C9: every recursive operation of the node type terminates on every
finite tree with recursion depth bounded by the height of the tree — running each
operation with fuel equal to the height completes and computes the same
result as the (total) operation.  `visit` is not recursive at all. -/
theorem btree_operations_terminate_height_bound {T : Type} [DecidableEq T]
    (cmp : BtreeCmp T) (dup : Bool) (n : BtreeNode T) (v : T) (b : Bool) :
    BtreeNode.searchFuel n.height n v cmp = some (n.search v cmp) ∧
    BtreeNode.insertFuel n.height n v cmp dup = some (n.insert v cmp dup) ∧
    BtreeNode.unvisitFuel n.height n b = some (n.unvisit b) ∧
    n.visit = n.visit :=
  ⟨BtreeNode.searchFuel_eq v cmp n n.height le_rfl,
   BtreeNode.insertFuel_eq v cmp dup n n.height le_rfl,
   BtreeNode.unvisitFuel_eq b n n.height le_rfl, rfl⟩
